import Mathlib

/-
Verification of the heap subsystem of the churf garbage collector
(src/GC/lib/heap.cpp): a conservative, stop-the-world mark-and-sweep
collector over a fixed-capacity region.

Modelling conventions:
- Machine addresses and sizes are natural numbers; one address unit is one
  machine word, and `mem : Nat → Nat` gives the word stored at an address
  (the mutator stack and chunk interiors are read through `mem`).
- Chunk metadata objects (`Chunk *` in the source) are identified by an
  index into a store `store : List Chunk`; the lists `m_allocated_chunks`
  and `m_freed_chunks` hold indices, mirroring the vectors of pointers.
  `delete chunk` is modelled by recording the index in `m_destroyed`.
- Text printed to the standard output stream is collected in `output`.
- The fallible `alloc` returns an `AllocResult`: `nullPtr` for the
  zero-size diagnostic path, `oom` for the fatal assertion after an
  insufficient collection, `ok a` for a successful allocation at address
  `a`.
-/

set_option autoImplicit false

namespace GC

/--
Modelled from the spec: the header declaring `struct Chunk` is not under
`src/`; spec §3 gives its fields: `start` (address within the region),
`size` (byte length) and `marked` (transient bit, set during mark, cleared
by sweep).  Freshly constructed chunks are unmarked.
-/
structure Chunk where
  start : Nat
  size : Nat
  marked : Bool
deriving DecidableEq, Repr, Inhabited

/-- The constant `HEAP_SIZE`, the fixed capacity of the backing region (65536 bytes). -/
def HEAP_SIZE : Nat := 65536

/--
Modelled from the spec: the header defining `FREE_THRESH` is not under
`src/`.  Spec §6 lists it as a compile-time parameter (the count above
which `free` drains `freed` wholesale) with no stated default; scenario 5
of §8 exercises the value 4.  The theorems below depend only on
comparisons against it, not on its value.
-/
def FREE_THRESH : Nat := 4

/--
The heap singleton's state (`class Heap`): the region base address
`m_heap`, the bump counter `m_size` (bytes used), the captured
`m_stack_top`, the two chunk lists, plus the chunk store, the list of
destroyed (`delete`d) chunk ids and the collected standard-output text.
-/
structure Heap where
  m_heap : Nat
  m_size : Nat
  m_stack_top : Nat
  m_allocated_chunks : List Nat
  m_freed_chunks : List Nat
  store : List Chunk
  m_destroyed : List Nat
  output : List String
deriving DecidableEq, Repr

/-- Result of `Heap::alloc`: null pointer, fatal out-of-memory, or an address. -/
inductive AllocResult where
  | nullPtr : AllocResult
  | oom : AllocResult
  | ok : Nat → AllocResult
deriving DecidableEq, Repr

/-- Write the mark bit of the chunk with id `i` (no-op past the store's end,
like a `Chunk *` that does not exist). -/
def setMark (store : List Chunk) (i : Nat) (b : Bool) : List Chunk :=
  store.set i { store.getD i default with marked := b }

/--
Loop body of `Heap::try_recycle_chunks` (heap.cpp lines 119-144): walk the
freed list in order; on the first chunk with `m_size > size` erase it from
`freed`, append a complement chunk `Chunk(diff, chunk->m_start +
chunk->m_size)` to `freed` and push the chunk onto `allocated`; on
`m_size == size` erase it from `freed` and push it onto `allocated`;
otherwise keep walking.  `acc` accumulates the already-visited prefix.
-/
def recycleGo (h : Heap) (size : Nat) (acc : List Nat) : List Nat → Option Nat × Heap
  | [] => (none, h)
  | i :: rest =>
    let c := h.store.getD i default
    if size < c.size then
      (some i,
       { h with m_freed_chunks := (acc.reverse ++ rest) ++ [h.store.length],
                m_allocated_chunks := h.m_allocated_chunks ++ [i],
                store := h.store ++ [⟨c.start + c.size, c.size - size, false⟩] })
    else if c.size = size then
      (some i,
       { h with m_freed_chunks := acc.reverse ++ rest,
                m_allocated_chunks := h.m_allocated_chunks ++ [i] })
    else recycleGo h size (i :: acc) rest

/-- Function `Heap::try_recycle_chunks` (heap.cpp lines 115-147). -/
def try_recycle_chunks (h : Heap) (size : Nat) : Option Nat × Heap :=
  recycleGo h size [] h.m_freed_chunks

mutual

/--
The outer `for (; start <= end; start++)` loop of `Heap::mark` (heap.cpp
lines 199-233), scanning `cnt` consecutive words beginning at address
`cur`.  `fuel` bounds the number of marking events; the top-level wrapper
`mark` passes the worklist length, which always suffices because each
marking event removes one worklist entry.
-/
def markWords (mem : Nat → Nat) (fuel cur cnt : Nat) (wl : List Nat)
    (store : List Chunk) : List Nat × List Chunk :=
  match cnt with
  | 0 => (wl, store)
  | Nat.succ c =>
    let p := markOne mem fuel (mem cur) wl store
    markWords mem fuel (cur + 1) c p.1 p.2
termination_by (fuel, 1, cnt)

/--
The inner `while (it != stop)` loop of `Heap::mark` for one scanned word
value `w`: for each chunk in the worklist, if `c_start <= w && w < c_end`
and the chunk is unmarked, mark it, erase it from the worklist and
recursively scan the chunk's interior (`[c_start, c_end]`, inclusive of
both bounds as in the source) against the remaining worklist; if the
chunk is marked or missed, keep it and advance.  The source passes the
worklist by reference and continues iterating after the recursive call;
its iterator discipline after `erase` is undefined behaviour (the saved
`stop` iterator goes stale), so this embedding uses the natural reading:
the recursion and the continuation operate on the remaining suffix.
-/
def markOne (mem : Nat → Nat) (fuel : Nat) (w : Nat) (wl : List Nat)
    (store : List Chunk) : List Nat × List Chunk :=
  match wl with
  | [] => ([], store)
  | i :: rest =>
    let c := store.getD i default
    if c.start ≤ w ∧ w < c.start + c.size then
      if c.marked then
        let p := markOne mem fuel w rest store
        (i :: p.1, p.2)
      else
        match fuel with
        | 0 => (rest, setMark store i true)
        | Nat.succ f =>
          let p1 := markWords mem f c.start (c.size + 1) rest (setMark store i true)
          markOne mem f w p1.1 p1.2
    else
      let p := markOne mem fuel w rest store
      (i :: p.1, p.2)
termination_by (fuel, 0, wl.length)

end

/--
Function `Heap::mark(start, end, worklist)` (heap.cpp lines 191-234): scan the
words at addresses `s, s+1, ..., e` (inclusive; no iteration when
`s > e`) against the worklist, marking every chunk some scanned word
points into and transitively scanning marked chunks' interiors.
-/
def mark (mem : Nat → Nat) (s e : Nat) (wl : List Nat) (store : List Chunk) :
    List Nat × List Chunk :=
  markWords mem wl.length s (e + 1 - s) wl store

/--
Loop of `Heap::sweep` (heap.cpp lines 245-267): walk `allocated`; a
marked chunk is unmarked and retained, an unmarked chunk is appended to
the freed list and removed from `allocated`.  Returns (retained ids,
newly freed ids in traversal order, updated store).
-/
def sweepGo (store : List Chunk) : List Nat → List Nat × List Nat × List Chunk
  | [] => ([], [], store)
  | i :: rest =>
    if (store.getD i default).marked then
      let p := sweepGo (setMark store i false) rest
      (i :: p.1, p.2.1, p.2.2)
    else
      let p := sweepGo store rest
      (p.1, i :: p.2.1, p.2.2)

/-- Function `Heap::sweep` (heap.cpp lines 243-268). -/
def sweep (h : Heap) : Heap :=
  let p := sweepGo h.store h.m_allocated_chunks
  { h with m_allocated_chunks := p.1,
           m_freed_chunks := h.m_freed_chunks ++ p.2.1,
           store := p.2.2 }

/--
Filtering loop of `Heap::free_overlap` (heap.cpp lines 321-333): keep a
subsequent chunk `next` exactly when `n_start >= p_start + p_size` for
`prev` the last kept chunk; `prev` is the id of the last kept chunk.
-/
def overlapGo (store : List Chunk) (prev : Nat) : List Nat → List Nat
  | [] => []
  | i :: rest =>
    if (store.getD prev default).start + (store.getD prev default).size
        ≤ (store.getD i default).start
    then i :: overlapGo store i rest
    else overlapGo store prev rest

/-- Set the mark bit of every chunk id in the list to `b`. -/
def setMarkList (store : List Chunk) (b : Bool) : List Nat → List Chunk
  | [] => store
  | i :: rest => setMarkList (setMark store i b) b rest

/--
Final loop of `Heap::free_overlap` (heap.cpp lines 339-352): for each
chunk of the original freed list, `delete` it if its mark bit is unset,
otherwise clear the bit.  Returns (updated store, deleted ids in
traversal order).
-/
def freeDeleteGo (store : List Chunk) : List Nat → List Chunk × List Nat
  | [] => (store, [])
  | i :: rest =>
    if (store.getD i default).marked then
      freeDeleteGo (setMark store i false) rest
    else
      let p := freeDeleteGo store rest
      (p.1, i :: p.2)

/--
Function `Heap::free_overlap` (heap.cpp lines 313-353): mark and keep the first
freed chunk (printing its start address), then keep each subsequent chunk
whose start lies at or past the end of the last kept chunk; replace
`freed` with the kept list, delete the dropped chunks and clear the
survivors' mark bits.  The source indexes `m_freed_chunks[0]`
unconditionally, so the caller guarantees a non-empty freed list; on an
empty list this embedding returns the heap unchanged.
-/
def free_overlap (h : Heap) : Heap :=
  match h.m_freed_chunks with
  | [] => h
  | i0 :: rest =>
    let kept := i0 :: overlapGo h.store i0 rest
    let store1 := setMarkList h.store true kept
    let p := freeDeleteGo store1 (i0 :: rest)
    { h with m_freed_chunks := kept,
             store := p.1,
             m_destroyed := h.m_destroyed ++ p.2,
             output := h.output ++ [toString ((h.store.getD i0 default).start)] }

/--
Function `Heap::free` (heap.cpp lines 279-300): when `|freed| > FREE_THRESH`,
pop and `delete` every freed chunk; otherwise, when `freed` is non-empty,
run `free_overlap`.
-/
def free (h : Heap) : Heap :=
  if FREE_THRESH < h.m_freed_chunks.length then
    { h with m_freed_chunks := [],
             m_destroyed := h.m_destroyed ++ h.m_freed_chunks.reverse }
  else if h.m_freed_chunks.length ≠ 0 then free_overlap h
  else h

/--
Function `Heap::collect` (heap.cpp lines 156-177): take `work_list` as a copy of
`allocated`, run `mark(stack_bottom, m_stack_top, work_list)`, then
`sweep`, then `free`.
-/
def collect (mem : Nat → Nat) (stack_bottom : Nat) (h : Heap) : Heap :=
  let p := mark mem stack_bottom h.m_stack_top h.m_allocated_chunks h.store
  free (sweep { h with store := p.2 })

/--
Function `Heap::alloc` (heap.cpp lines 54-97): a zero-size request prints a
diagnostic and returns null; if `m_size + size > HEAP_SIZE` a collection
runs, and if the capacity is still insufficient the assertion
`"Heap: Out Of Memory"` aborts; otherwise the request is satisfied by
recycling a freed chunk (returning that chunk's start) or by a fresh
chunk `Chunk(size, m_heap + m_size)` that advances `m_size` and joins
`allocated`.
-/
def alloc (mem : Nat → Nat) (stack_bottom : Nat) (h : Heap) (size : Nat) :
    AllocResult × Heap :=
  if size = 0 then
    (AllocResult.nullPtr,
     { h with output := h.output ++ ["Heap: Cannot alloc 0B. No bytes allocated."] })
  else
    let h1 := if HEAP_SIZE < h.m_size + size then collect mem stack_bottom h else h
    if HEAP_SIZE < h1.m_size + size then (AllocResult.oom, h1)
    else
      match try_recycle_chunks h1 size with
      | (some i, h2) => (AllocResult.ok ((h2.store.getD i default).start), h2)
      | (none, h2) =>
        (AllocResult.ok (h2.m_heap + h2.m_size),
         { h2 with m_size := h2.m_size + size,
                   m_allocated_chunks := h2.m_allocated_chunks ++ [h2.store.length],
                   store := h2.store ++ [⟨h2.m_heap + h2.m_size, size, false⟩] })

/-! ### Predicates and concrete heaps used by the proofs -/

/-- Two stores agree on the geometry (start and size) of every chunk id. -/
def geomEq (s t : List Chunk) : Prop :=
  ∀ j, (t.getD j default).start = (s.getD j default).start ∧
       (t.getD j default).size = (s.getD j default).size

/-- Every chunk marked in `s` is still marked in `t`. -/
def markedLe (s t : List Chunk) : Prop :=
  ∀ j, (s.getD j default).marked = true → (t.getD j default).marked = true

/-- Invariants of one `markWords` call: store length and chunk geometry are
preserved, the worklist only shrinks, mark bits only go from unset to set,
and a worklist entry is only removed once its chunk is marked. -/
def MarkWordsProp (mem : Nat → Nat) (fuel cur cnt : Nat) (wl : List Nat)
    (store : List Chunk) : Prop :=
  (markWords mem fuel cur cnt wl store).2.length = store.length
  ∧ (markWords mem fuel cur cnt wl store).1.length ≤ wl.length
  ∧ geomEq store (markWords mem fuel cur cnt wl store).2
  ∧ markedLe store (markWords mem fuel cur cnt wl store).2
  ∧ (∀ i, i ∈ wl → i < store.length →
      i ∈ (markWords mem fuel cur cnt wl store).1
      ∨ ((markWords mem fuel cur cnt wl store).2.getD i default).marked = true)

/-- Invariants of one `markOne` call, as in `MarkWordsProp`. -/
def MarkOneProp (mem : Nat → Nat) (fuel w : Nat) (wl : List Nat)
    (store : List Chunk) : Prop :=
  (markOne mem fuel w wl store).2.length = store.length
  ∧ (markOne mem fuel w wl store).1.length ≤ wl.length
  ∧ geomEq store (markOne mem fuel w wl store).2
  ∧ markedLe store (markOne mem fuel w wl store).2
  ∧ (∀ i, i ∈ wl → i < store.length →
      i ∈ (markOne mem fuel w wl store).1
      ∨ ((markOne mem fuel w wl store).2.getD i default).marked = true)

/-- If a word scanned by `markWords` (the `k`-th of `cnt`, `k < cnt`) holds a
value inside the chunk of a worklist entry, that chunk ends up marked,
provided the fuel is at least the worklist length (as supplied by `mark`). -/
def MarkWordsHit (mem : Nat → Nat) (fuel cur cnt : Nat) (wl : List Nat)
    (store : List Chunk) : Prop :=
  ∀ i k, i ∈ wl → i < store.length → wl.length ≤ fuel → k < cnt →
    (store.getD i default).start ≤ mem (cur + k) →
    mem (cur + k) < (store.getD i default).start + (store.getD i default).size →
    ((markWords mem fuel cur cnt wl store).2.getD i default).marked = true

/-- Function `markOne` marks every worklist chunk whose range contains the scanned
word value `w`, provided the fuel is at least the worklist length. -/
def MarkOneHit (mem : Nat → Nat) (fuel w : Nat) (wl : List Nat)
    (store : List Chunk) : Prop :=
  ∀ i, i ∈ wl → i < store.length → wl.length ≤ fuel →
    (store.getD i default).start ≤ w →
    w < (store.getD i default).start + (store.getD i default).size →
    ((markOne mem fuel w wl store).2.getD i default).marked = true

/-- A concrete heap with one allocated two-word chunk at address 100,
pointed to by every word of a one-word stack range. -/
def hC1 : Heap := ⟨0, 10, 0, [0], [], [⟨100, 2, false⟩], [], []⟩

/-- A concrete heap with two allocated chunks, one marked and one not. -/
def hC4 : Heap := ⟨0, 8, 0, [0, 1], [], [⟨0, 4, true⟩, ⟨4, 4, false⟩], [], []⟩

/-- A concrete freed list with an overlap: `[0,100)`, `[50,120)`, `[130,150)`. -/
def hC3 : Heap :=
  ⟨0, 0, 0, [], [0, 1, 2], [⟨0, 100, false⟩, ⟨50, 70, false⟩, ⟨130, 20, false⟩], [], []⟩

/-- A fresh empty heap used to witness the capacity theorem. -/
def hC5 : Heap := ⟨0, 0, 0, [], [], [], [], []⟩

/-- A heap with five freed chunks, one over the drain threshold. -/
def hC7a : Heap :=
  ⟨0, 20, 0, [], [0, 1, 2, 3, 4],
   [⟨0, 4, false⟩, ⟨4, 4, false⟩, ⟨8, 4, false⟩, ⟨12, 4, false⟩, ⟨16, 4, false⟩], [], []⟩

/-- A heap with a single freed chunk, below the drain threshold. -/
def hC7b : Heap := ⟨0, 4, 0, [], [0], [⟨0, 4, false⟩], [], []⟩

/-- A heap with one freed chunk that exactly fits a 3-byte request. -/
def hC9 : Heap := ⟨0, 0, 0, [], [0], [⟨5, 3, false⟩], [], []⟩

/-- A heap whose single freed chunk (2 bytes) is too small for a 3-byte
request. -/
def hC10 : Heap := ⟨0, 0, 0, [], [0], [⟨5, 2, false⟩], [], []⟩

/-- A heap whose freed list holds a single 10-byte chunk at address 0. -/
def hC2 : Heap := ⟨0, 0, 0, [], [0], [⟨0, 10, false⟩], [], []⟩

/-! ### Store helper lemmas -/

theorem getD_set (s : List Chunk) (i j : Nat) (v : Chunk) :
    (s.set i v).getD j default = if i = j ∧ j < s.length then v else s.getD j default := by
  induction s generalizing i j with
  | nil => simp
  | cons a t ih =>
    cases i with
    | zero => cases j <;> simp
    | succ i' =>
      cases j with
      | zero => simp
      | succ j' => simpa [Nat.succ_lt_succ_iff] using ih i' j'

theorem setMark_length (s : List Chunk) (i : Nat) (b : Bool) :
    (setMark s i b).length = s.length := by
  simp [setMark]

theorem geomEq_refl (s : List Chunk) : geomEq s s := fun _ => ⟨rfl, rfl⟩

theorem geomEq_trans {a b c : List Chunk} (h1 : geomEq a b) (h2 : geomEq b c) :
    geomEq a c := fun j => ⟨(h2 j).1.trans (h1 j).1, (h2 j).2.trans (h1 j).2⟩

theorem markedLe_refl (s : List Chunk) : markedLe s s := fun _ h => h

theorem markedLe_trans {a b c : List Chunk} (h1 : markedLe a b) (h2 : markedLe b c) :
    markedLe a c := fun j h => h2 j (h1 j h)

theorem geomEq_setMark (s : List Chunk) (i : Nat) (b : Bool) :
    geomEq s (setMark s i b) := by
  intro j
  unfold setMark
  rw [getD_set]
  split
  · rename_i hij
    rw [hij.1]
    exact ⟨rfl, rfl⟩
  · exact ⟨rfl, rfl⟩

theorem markedLe_setMark_true (s : List Chunk) (i : Nat) :
    markedLe s (setMark s i true) := by
  intro j hj
  unfold setMark
  rw [getD_set]
  split
  · rfl
  · exact hj

theorem setMark_marked_self (s : List Chunk) (i : Nat) (h : i < s.length) :
    ((setMark s i true).getD i default).marked = true := by
  unfold setMark
  rw [getD_set]
  simp [h]

/-! ### Step equations for the mark phase -/

theorem markWords_zero (mem : Nat → Nat) (fuel cur : Nat) (wl : List Nat)
    (store : List Chunk) : markWords mem fuel cur 0 wl store = (wl, store) := by
  rw [markWords.eq_def]

theorem markWords_succ (mem : Nat → Nat) (fuel cur c : Nat) (wl : List Nat)
    (store : List Chunk) :
    markWords mem fuel cur (c + 1) wl store
      = markWords mem fuel (cur + 1) c (markOne mem fuel (mem cur) wl store).1
          (markOne mem fuel (mem cur) wl store).2 := by
  rw [markWords.eq_def]

theorem markOne_nil (mem : Nat → Nat) (fuel w : Nat) (store : List Chunk) :
    markOne mem fuel w [] store = ([], store) := by
  rw [markOne.eq_def]

theorem markOne_cons_hit_marked (mem : Nat → Nat) (fuel w i : Nat) (rest : List Nat)
    (store : List Chunk)
    (hit : (store.getD i default).start ≤ w
      ∧ w < (store.getD i default).start + (store.getD i default).size)
    (hmk : (store.getD i default).marked = true) :
    markOne mem fuel w (i :: rest) store
      = (i :: (markOne mem fuel w rest store).1, (markOne mem fuel w rest store).2) := by
  rw [markOne.eq_def]
  dsimp only
  rw [if_pos hit, if_pos hmk]

theorem markOne_cons_hit_unmarked_zero (mem : Nat → Nat) (w i : Nat) (rest : List Nat)
    (store : List Chunk)
    (hit : (store.getD i default).start ≤ w
      ∧ w < (store.getD i default).start + (store.getD i default).size)
    (hmk : ¬(store.getD i default).marked = true) :
    markOne mem 0 w (i :: rest) store = (rest, setMark store i true) := by
  rw [markOne.eq_def]
  dsimp only
  rw [if_pos hit, if_neg hmk]

theorem markOne_cons_hit_unmarked_succ (mem : Nat → Nat) (f w i : Nat) (rest : List Nat)
    (store : List Chunk)
    (hit : (store.getD i default).start ≤ w
      ∧ w < (store.getD i default).start + (store.getD i default).size)
    (hmk : ¬(store.getD i default).marked = true) :
    markOne mem (f + 1) w (i :: rest) store
      = markOne mem f w
          (markWords mem f (store.getD i default).start ((store.getD i default).size + 1)
            rest (setMark store i true)).1
          (markWords mem f (store.getD i default).start ((store.getD i default).size + 1)
            rest (setMark store i true)).2 := by
  rw [markOne.eq_def]
  dsimp only
  rw [if_pos hit, if_neg hmk]

theorem markOne_cons_miss (mem : Nat → Nat) (fuel w i : Nat) (rest : List Nat)
    (store : List Chunk)
    (hmiss : ¬((store.getD i default).start ≤ w
      ∧ w < (store.getD i default).start + (store.getD i default).size)) :
    markOne mem fuel w (i :: rest) store
      = (i :: (markOne mem fuel w rest store).1, (markOne mem fuel w rest store).2) := by
  rw [markOne.eq_def]
  dsimp only
  rw [if_neg hmiss]

/-! ### Basic invariants of the mark phase -/

theorem mark_basic (mem : Nat → Nat) :
    (∀ fuel cur cnt wl store, MarkWordsProp mem fuel cur cnt wl store)
    ∧ (∀ fuel w wl store, MarkOneProp mem fuel w wl store) := by
  refine markWords.mutual_induct mem (MarkWordsProp mem) (MarkOneProp mem)
    ?_ ?_ ?_ ?_ ?_ ?_ ?_
  · -- cnt = 0
    intro fuel cur wl store
    unfold MarkWordsProp
    rw [markWords_zero]
    exact ⟨rfl, le_refl _, geomEq_refl _, markedLe_refl _, fun i hi _ => Or.inl hi⟩
  · -- cnt = c + 1
    intro fuel cur wl store c
    dsimp only
    intro h2 h1
    obtain ⟨a1, a2, a3, a4, a5⟩ := h2
    obtain ⟨b1, b2, b3, b4, b5⟩ := h1
    unfold MarkWordsProp
    rw [markWords_succ]
    refine ⟨b1.trans a1, b2.trans a2, geomEq_trans a3 b3, markedLe_trans a4 b4, ?_⟩
    intro i hi hlt
    rcases a5 i hi hlt with hp | hm
    · exact b5 i hp (a1 ▸ hlt)
    · exact Or.inr (b4 i hm)
  · -- wl = []
    intro fuel w store
    unfold MarkOneProp
    rw [markOne_nil]
    exact ⟨rfl, Nat.le_refl _, geomEq_refl _, markedLe_refl _, by simp⟩
  · -- head hit, already marked
    intro fuel w store i rest
    dsimp only
    intro hit hmk ih
    obtain ⟨a1, a2, a3, a4, a5⟩ := ih
    unfold MarkOneProp
    rw [markOne_cons_hit_marked mem fuel w i rest store hit hmk]
    refine ⟨a1, by simpa using a2, a3, a4, ?_⟩
    intro j hj hlt
    rcases List.mem_cons.mp hj with rfl | hjr
    · exact Or.inl (List.mem_cons_self _ _)
    · rcases a5 j hjr hlt with hp | hm
      · exact Or.inl (List.mem_cons_of_mem _ hp)
      · exact Or.inr hm
  · -- head hit, unmarked, fuel exhausted
    intro w store i rest
    dsimp only
    intro hit hmk
    unfold MarkOneProp
    rw [markOne_cons_hit_unmarked_zero mem w i rest store hit hmk]
    refine ⟨setMark_length _ _ _, Nat.le_succ_of_le (Nat.le_refl _),
      geomEq_setMark _ _ _, markedLe_setMark_true _ _, ?_⟩
    intro j hj hlt
    rcases List.mem_cons.mp hj with rfl | hjr
    · exact Or.inr (setMark_marked_self _ _ hlt)
    · exact Or.inl hjr
  · -- head hit, unmarked, positive fuel: mark, scan the interior, continue
    intro w store i rest
    dsimp only
    intro hit hmk f hw1 hw2 hone
    clear hw2
    obtain ⟨a1, a2, a3, a4, a5⟩ := hw1
    obtain ⟨b1, b2, b3, b4, b5⟩ := hone
    unfold MarkOneProp
    rw [markOne_cons_hit_unmarked_succ mem f w i rest store hit hmk]
    have hsm : (setMark store i true).length = store.length := setMark_length _ _ _
    refine ⟨b1.trans (a1.trans hsm),
      le_trans (b2.trans a2) (Nat.le_succ_of_le (Nat.le_refl _)),
      geomEq_trans (geomEq_trans (geomEq_setMark _ _ _) a3) b3,
      markedLe_trans (markedLe_trans (markedLe_setMark_true _ _) a4) b4, ?_⟩
    intro j hj hlt
    rcases List.mem_cons.mp hj with rfl | hjr
    · exact Or.inr (b4 j (a4 j (setMark_marked_self _ _ hlt)))
    · have hlt1 : j < (setMark store i true).length := hsm ▸ hlt
      rcases a5 j hjr hlt1 with hp | hm
      · exact b5 j hp (by rw [a1, hsm]; exact hlt)
      · exact Or.inr (b4 j hm)
  · -- head missed
    intro fuel w store i rest
    dsimp only
    intro hmiss ih
    obtain ⟨a1, a2, a3, a4, a5⟩ := ih
    unfold MarkOneProp
    rw [markOne_cons_miss mem fuel w i rest store hmiss]
    refine ⟨a1, by simpa using a2, a3, a4, ?_⟩
    intro j hj hlt
    rcases List.mem_cons.mp hj with rfl | hjr
    · exact Or.inl (List.mem_cons_self _ _)
    · rcases a5 j hjr hlt with hp | hm
      · exact Or.inl (List.mem_cons_of_mem _ hp)
      · exact Or.inr hm

/-! ### The mark phase marks every chunk a scanned word points into -/

theorem mark_hit (mem : Nat → Nat) :
    (∀ fuel cur cnt wl store, MarkWordsHit mem fuel cur cnt wl store)
    ∧ (∀ fuel w wl store, MarkOneHit mem fuel w wl store) := by
  refine markWords.mutual_induct mem (MarkWordsHit mem) (MarkOneHit mem)
    ?_ ?_ ?_ ?_ ?_ ?_ ?_
  · -- cnt = 0
    intro fuel cur wl store i k _ _ _ hk
    exact absurd hk (Nat.not_lt_zero _)
  · -- cnt = c + 1
    intro fuel cur wl store c
    dsimp only
    intro h2 h1
    obtain ⟨a1, a2, a3, a4, a5⟩ := (mark_basic mem).2 fuel (mem cur) wl store
    obtain ⟨b1, b2, b3, b4, b5⟩ :=
      (mark_basic mem).1 fuel (cur + 1) c (markOne mem fuel (mem cur) wl store).1
        (markOne mem fuel (mem cur) wl store).2
    unfold MarkWordsHit
    rw [markWords_succ]
    intro i k hi hlt hfuel hk hlo hhi
    rcases Nat.eq_zero_or_pos k with rfl | hkpos
    · exact b4 i (h2 i hi hlt hfuel hlo hhi)
    · obtain ⟨k', rfl⟩ : ∃ k', k = k' + 1 := ⟨k - 1, by omega⟩
      rcases a5 i hi hlt with hp | hm
      · have hgeo := a3 i
        have hlo' : ((markOne mem fuel (mem cur) wl store).2.getD i default).start
            ≤ mem (cur + 1 + k') := by
          rw [hgeo.1]
          have : cur + 1 + k' = cur + (k' + 1) := by omega
          rw [this]
          exact hlo
        have hhi' : mem (cur + 1 + k')
            < ((markOne mem fuel (mem cur) wl store).2.getD i default).start
              + ((markOne mem fuel (mem cur) wl store).2.getD i default).size := by
          rw [hgeo.1, hgeo.2]
          have : cur + 1 + k' = cur + (k' + 1) := by omega
          rw [this]
          exact hhi
        exact h1 i k' hp (a1 ▸ hlt) (a2.trans hfuel) (by omega) hlo' hhi'
      · exact b4 i hm
  · -- wl = []
    intro fuel w store i hi
    exact absurd hi (List.not_mem_nil _)
  · -- head hit, already marked
    intro fuel w store i rest
    dsimp only
    intro hit hmk ih
    obtain ⟨a1, a2, a3, a4, a5⟩ := (mark_basic mem).2 fuel w rest store
    unfold MarkOneHit
    rw [markOne_cons_hit_marked mem fuel w i rest store hit hmk]
    intro j hj hlt hfuel hlo hhi
    rcases List.mem_cons.mp hj with rfl | hjr
    · exact a4 j hmk
    · exact ih j hjr hlt (Nat.le_of_succ_le hfuel) hlo hhi
  · -- head hit, unmarked, fuel exhausted: unreachable under the fuel bound
    intro w store i rest
    dsimp only
    intro hit hmk
    unfold MarkOneHit
    intro j hj hlt hfuel
    simp at hfuel
  · -- head hit, unmarked, positive fuel
    intro w store i rest
    dsimp only
    intro hit hmk f hw1 hw2 hone
    clear hw2
    obtain ⟨a1, a2, a3, a4, a5⟩ :=
      (mark_basic mem).1 f (store.getD i default).start ((store.getD i default).size + 1)
        rest (setMark store i true)
    obtain ⟨b1, b2, b3, b4, b5⟩ :=
      (mark_basic mem).2 f w
        (markWords mem f (store.getD i default).start ((store.getD i default).size + 1)
          rest (setMark store i true)).1
        (markWords mem f (store.getD i default).start ((store.getD i default).size + 1)
          rest (setMark store i true)).2
    unfold MarkOneHit
    rw [markOne_cons_hit_unmarked_succ mem f w i rest store hit hmk]
    intro j hj hlt hfuel hlo hhi
    have hsm : (setMark store i true).length = store.length := setMark_length _ _ _
    rcases List.mem_cons.mp hj with rfl | hjr
    · exact b4 j (a4 j (setMark_marked_self _ _ hlt))
    · have hlt1 : j < (setMark store i true).length := hsm ▸ hlt
      rcases a5 j hjr hlt1 with hp | hm
      · have hgeo := geomEq_trans (geomEq_setMark store i true) a3
        have hg := hgeo j
        refine hone j hp (by rw [a1, hsm]; exact hlt) ?_ ?_ ?_
        · calc (markWords mem f (store.getD i default).start
                ((store.getD i default).size + 1) rest (setMark store i true)).1.length
              ≤ rest.length := a2
          _ ≤ f := by
              have : rest.length + 1 ≤ f + 1 := by simpa using hfuel
              omega
        · rw [hg.1]; exact hlo
        · rw [hg.1, hg.2]; exact hhi
      · exact b4 j hm
  · -- head missed
    intro fuel w store i rest
    dsimp only
    intro hmiss ih
    unfold MarkOneHit
    rw [markOne_cons_miss mem fuel w i rest store hmiss]
    intro j hj hlt hfuel hlo hhi
    rcases List.mem_cons.mp hj with rfl | hjr
    · exact absurd ⟨hlo, hhi⟩ hmiss
    · exact ih j hjr hlt (Nat.le_of_succ_le hfuel) hlo hhi

theorem setMark_marked_ne (s : List Chunk) (i : Nat) (b : Bool) (j : Nat) (h : i ≠ j) :
    ((setMark s i b).getD j default).marked = (s.getD j default).marked := by
  unfold setMark
  rw [getD_set]
  simp [h]

/-- A worklist entry whose chunk range is non-trivial is a valid store id. -/
theorem valid_of_inhabited_range (store : List Chunk) (i a : Nat)
    (hlo : (store.getD i default).start ≤ a)
    (hhi : a < (store.getD i default).start + (store.getD i default).size) :
    i < store.length := by
  by_contra hge
  rw [List.getD_eq_default _ _ (Nat.le_of_not_lt hge)] at hlo hhi
  have hs : (default : Chunk).start = 0 := rfl
  have hz : (default : Chunk).size = 0 := rfl
  rw [hs] at hlo
  rw [hs, hz] at hhi
  omega

/-- Function `Heap::mark` marks every worklist chunk that some scanned word
(`s ≤ w ≤ e`, ends inclusive) points into. -/
theorem mark_marks_hit (mem : Nat → Nat) (s e : Nat) (wl : List Nat)
    (store : List Chunk) (i w : Nat) (hsw : s ≤ w) (hwe : w ≤ e) (hi : i ∈ wl)
    (hlo : (store.getD i default).start ≤ mem w)
    (hhi : mem w < (store.getD i default).start + (store.getD i default).size) :
    ((mark mem s e wl store).2.getD i default).marked = true := by
  have hvalid : i < store.length := valid_of_inhabited_range store i (mem w) hlo hhi
  have hk : w - s < e + 1 - s := by omega
  have hcur : s + (w - s) = w := by omega
  exact (mark_hit mem).1 wl.length s (e + 1 - s) wl store i (w - s) hi hvalid
    (Nat.le_refl _) hk (by rw [hcur]; exact hlo) (by rw [hcur]; exact hhi)

/-! ### Sweep lemmas -/

theorem sweepGo_cons_marked (store : List Chunk) (j : Nat) (rest : List Nat)
    (hm : (store.getD j default).marked = true) :
    sweepGo store (j :: rest)
      = (j :: (sweepGo (setMark store j false) rest).1,
         (sweepGo (setMark store j false) rest).2.1,
         (sweepGo (setMark store j false) rest).2.2) := by
  rw [sweepGo]
  rw [if_pos hm]

theorem sweepGo_cons_unmarked (store : List Chunk) (j : Nat) (rest : List Nat)
    (hm : ¬(store.getD j default).marked = true) :
    sweepGo store (j :: rest)
      = ((sweepGo store rest).1,
         j :: (sweepGo store rest).2.1,
         (sweepGo store rest).2.2) := by
  rw [sweepGo]
  rw [if_neg hm]

/-- The sweep loop retains every marked allocated chunk. -/
theorem sweepGo_keeps_marked (l : List Nat) :
    ∀ (store : List Chunk) (i : Nat), i ∈ l →
      (store.getD i default).marked = true → i ∈ (sweepGo store l).1 := by
  induction l with
  | nil => intro store i hi _; exact absurd hi (List.not_mem_nil _)
  | cons j rest ih =>
    intro store i hi hm
    rcases List.mem_cons.mp hi with rfl | hir
    · rw [sweepGo_cons_marked store i rest hm]
      exact List.mem_cons_self _ _
    · by_cases hj : (store.getD j default).marked = true
      · rw [sweepGo_cons_marked store j rest hj]
        rcases eq_or_ne j i with rfl | hne
        · exact List.mem_cons_self _ _
        · refine List.mem_cons_of_mem _ (ih (setMark store j false) i hir ?_)
          rw [setMark_marked_ne store j false i hne]
          exact hm
      · rw [sweepGo_cons_unmarked store j rest hj]
        exact ih store i hir hm

/-- Neither branch of `Heap::free` touches the allocated list. -/
theorem free_allocated (h : Heap) :
    (free h).m_allocated_chunks = h.m_allocated_chunks := by
  unfold free
  split
  · rfl
  · split
    · unfold free_overlap
      split <;> rfl
    · rfl

/-- Function `Heap::sweep` does not change the bump counter. -/
theorem sweep_m_size (h : Heap) : (sweep h).m_size = h.m_size := rfl

/-- Function `Heap::free_overlap` does not change the bump counter. -/
theorem free_overlap_m_size (h : Heap) : (free_overlap h).m_size = h.m_size := by
  unfold free_overlap
  split <;> rfl

/-- Function `Heap::free` does not change the bump counter. -/
theorem free_m_size (h : Heap) : (free h).m_size = h.m_size := by
  unfold free
  split
  · rfl
  · split
    · exact free_overlap_m_size h
    · rfl

/-- Function `Heap::collect` does not change the bump counter. -/
theorem collect_m_size (mem : Nat → Nat) (sb : Nat) (h : Heap) :
    (collect mem sb h).m_size = h.m_size := by
  unfold collect
  rw [free_m_size, sweep_m_size]

/-- An empty worklist makes the whole scan a no-op. -/
theorem markWords_nil (mem : Nat → Nat) (fuel cur cnt : Nat) (store : List Chunk) :
    markWords mem fuel cur cnt [] store = ([], store) := by
  induction cnt generalizing cur with
  | zero => exact markWords_zero mem fuel cur [] store
  | succ c ih => rw [markWords_succ, markOne_nil]; exact ih (cur + 1)

/-! ### Claim theorems C1 and C6 -/

/-- Claim C1 (reachability preservation): if a machine word anywhere in the
scanned stack range `[stack_bottom, stack_top]` holds an address inside an
allocated chunk's range before `collect`, that chunk is still in
`allocated` after `collect` (mark followed by sweep, then free). -/
theorem reachability_preservation (mem : Nat → Nat) (sb : Nat) (h : Heap) (i w : Nat)
    (hi : i ∈ h.m_allocated_chunks)
    (hw1 : sb ≤ w) (hw2 : w ≤ h.m_stack_top)
    (hlo : (h.store.getD i default).start ≤ mem w)
    (hhi : mem w < (h.store.getD i default).start + (h.store.getD i default).size) :
    i ∈ (collect mem sb h).m_allocated_chunks := by
  unfold collect
  rw [free_allocated]
  exact sweepGo_keeps_marked h.m_allocated_chunks _ i hi
    (mark_marks_hit mem sb h.m_stack_top h.m_allocated_chunks h.store i w hw1 hw2 hi hlo hhi)

theorem reachability_preservation_witness :
    (0 ∈ hC1.m_allocated_chunks ∧ (0 : Nat) ≤ 0 ∧ (0 : Nat) ≤ hC1.m_stack_top
      ∧ (hC1.store.getD 0 default).start ≤ (fun _ : Nat => 100) 0
      ∧ (fun _ : Nat => 100) 0
          < (hC1.store.getD 0 default).start + (hC1.store.getD 0 default).size)
    ∧ 0 ∈ (collect (fun _ => 100) 0 hC1).m_allocated_chunks :=
  ⟨⟨by decide, by decide, by decide, by decide, by decide⟩,
   reachability_preservation (fun _ => 100) 0 hC1 0 0 (by decide) (by decide) (by decide)
     (by decide) (by decide)⟩

/-- Claim C6 (mark scan bounds and edge cases): the scan examines every word
from `start` to `end` inclusive (any worklist chunk containing the value of
a word at `s ≤ w ≤ e` ends up marked, in particular the word at `end`); an
empty worklist exits immediately with nothing changed; `start > end` is a
no-op; and a chunk that is marked stays marked. -/
theorem mark_scan_edge_cases (mem : Nat → Nat) :
    (∀ s e store, mark mem s e [] store = ([], store))
    ∧ (∀ s e wl store, e < s → mark mem s e wl store = (wl, store))
    ∧ (∀ s e wl store i w, s ≤ w → w ≤ e → i ∈ wl →
        (store.getD i default).start ≤ mem w →
        mem w < (store.getD i default).start + (store.getD i default).size →
        ((mark mem s e wl store).2.getD i default).marked = true)
    ∧ (∀ s e wl store i, (store.getD i default).marked = true →
        ((mark mem s e wl store).2.getD i default).marked = true) := by
  refine ⟨?_, ?_, ?_, ?_⟩
  · intro s e store
    exact markWords_nil mem _ s (e + 1 - s) store
  · intro s e wl store hes
    unfold mark
    have hz : e + 1 - s = 0 := by omega
    rw [hz, markWords_zero]
  · intro s e wl store i w hsw hwe hi hlo hhi
    exact mark_marks_hit mem s e wl store i w hsw hwe hi hlo hhi
  · intro s e wl store i hm
    exact ((mark_basic mem).1 wl.length s (e + 1 - s) wl store).2.2.2.1 i hm

theorem mark_scan_edge_cases_witness :
    ((7 : Nat) < 9 ∧ mark (fun _ => 100) 9 7 [0] [⟨100, 2, false⟩] = ([0], [⟨100, 2, false⟩]))
    ∧ ((3 : Nat) ≤ 5 ∧ (5 : Nat) ≤ 5 ∧ 0 ∈ [0]
        ∧ (([⟨100, 2, false⟩] : List Chunk).getD 0 default).start ≤ (fun _ : Nat => 100) 5
        ∧ (fun _ : Nat => 100) 5
            < (([⟨100, 2, false⟩] : List Chunk).getD 0 default).start
              + (([⟨100, 2, false⟩] : List Chunk).getD 0 default).size
        ∧ ((mark (fun _ => 100) 3 5 [0] [⟨100, 2, false⟩]).2.getD 0 default).marked = true)
    ∧ ((([⟨100, 2, true⟩] : List Chunk).getD 0 default).marked = true
        ∧ ((mark (fun _ => 100) 3 5 [0] [⟨100, 2, true⟩]).2.getD 0 default).marked = true) :=
  ⟨⟨by decide, (mark_scan_edge_cases (fun _ => 100)).2.1 9 7 [0] [⟨100, 2, false⟩] (by decide)⟩,
   ⟨by decide, by decide, by decide, by decide, by decide,
    (mark_scan_edge_cases (fun _ => 100)).2.2.1 3 5 [0] [⟨100, 2, false⟩] 0 5 (by decide)
      (by decide) (by decide) (by decide) (by decide)⟩,
   ⟨by decide,
    (mark_scan_edge_cases (fun _ => 100)).2.2.2 3 5 [0] [⟨100, 2, true⟩] 0 (by decide)⟩⟩

/-! ### Sweep postcondition (C4) -/

/-- A marked chunk id is a valid store index (the out-of-range default is
unmarked). -/
theorem valid_of_marked (store : List Chunk) (j : Nat)
    (h : (store.getD j default).marked = true) : j < store.length := by
  by_contra hge
  rw [List.getD_eq_default _ _ (Nat.le_of_not_lt hge)] at h
  exact Bool.false_ne_true h

theorem setMark_false_marked (store : List Chunk) (k j : Nat)
    (h : (store.getD j default).marked = false) :
    ((setMark store k false).getD j default).marked = false := by
  unfold setMark
  rw [getD_set]
  split
  · rfl
  · exact h

/-- The sweep loop never sets a mark bit. -/
theorem sweepGo_marked_false (l : List Nat) :
    ∀ (store : List Chunk) (j : Nat), (store.getD j default).marked = false →
      ((sweepGo store l).2.2.getD j default).marked = false := by
  induction l with
  | nil => intro store j h; exact h
  | cons k rest ih =>
    intro store j h
    by_cases hk : (store.getD k default).marked = true
    · rw [sweepGo_cons_marked store k rest hk]
      exact ih (setMark store k false) j (setMark_false_marked store k j h)
    · rw [sweepGo_cons_unmarked store k rest hk]
      exact ih store j h

/-- On a duplicate-free allocated list the sweep loop retains exactly the
marked chunks and frees exactly the unmarked ones, in traversal order. -/
theorem sweepGo_filter (l : List Nat) :
    ∀ (store : List Chunk), l.Nodup →
      (sweepGo store l).1 = l.filter (fun i => (store.getD i default).marked)
      ∧ (sweepGo store l).2.1 = l.filter (fun i => !(store.getD i default).marked) := by
  induction l with
  | nil => intro store _; exact ⟨rfl, rfl⟩
  | cons j rest ih =>
    intro store hnd
    have hj : j ∉ rest := (List.nodup_cons.mp hnd).1
    have hnd' : rest.Nodup := (List.nodup_cons.mp hnd).2
    by_cases hm : (store.getD j default).marked = true
    · rw [sweepGo_cons_marked store j rest hm]
      have hcongr : ∀ i ∈ rest,
          ((setMark store j false).getD i default).marked = (store.getD i default).marked := by
        intro i hi
        exact setMark_marked_ne store j false i (fun hji => hj (hji ▸ hi))
      obtain ⟨ha, hf⟩ := ih (setMark store j false) hnd'
      constructor
      · show j :: (sweepGo (setMark store j false) rest).1
            = List.filter (fun i => (store.getD i default).marked) (j :: rest)
        rw [List.filter_cons_of_pos (by simpa using hm), ha]
        exact congrArg (List.cons j) (List.filter_congr (fun i hi => by rw [hcongr i hi]))
      · show (sweepGo (setMark store j false) rest).2.1
            = List.filter (fun i => !(store.getD i default).marked) (j :: rest)
        rw [List.filter_cons_of_neg (by simpa using hm), hf]
        exact List.filter_congr (fun i hi => by rw [hcongr i hi])
    · rw [sweepGo_cons_unmarked store j rest hm]
      obtain ⟨ha, hf⟩ := ih store hnd'
      constructor
      · show (sweepGo store rest).1
            = List.filter (fun i => (store.getD i default).marked) (j :: rest)
        rw [List.filter_cons_of_neg (by simpa using hm), ha]
      · show j :: (sweepGo store rest).2.1
            = List.filter (fun i => !(store.getD i default).marked) (j :: rest)
        rw [List.filter_cons_of_pos (by simpa using hm), hf]

/-- The sweep loop leaves every retained chunk unmarked. -/
theorem sweepGo_kept_unmarked (l : List Nat) :
    ∀ (store : List Chunk), l.Nodup →
      ∀ i ∈ (sweepGo store l).1, (((sweepGo store l).2.2).getD i default).marked = false := by
  induction l with
  | nil =>
    intro store _ i hi
    exact absurd hi (List.not_mem_nil _)
  | cons j rest ih =>
    intro store hnd i hi
    have hj : j ∉ rest := (List.nodup_cons.mp hnd).1
    have hnd' : rest.Nodup := (List.nodup_cons.mp hnd).2
    by_cases hm : (store.getD j default).marked = true
    · rw [sweepGo_cons_marked store j rest hm] at hi ⊢
      dsimp only at hi ⊢
      rcases List.mem_cons.mp hi with rfl | hir
      · refine sweepGo_marked_false rest (setMark store i false) i ?_
        unfold setMark
        rw [getD_set]
        rw [if_pos ⟨rfl, valid_of_marked store i hm⟩]
      · exact ih (setMark store j false) hnd' i hir
    · rw [sweepGo_cons_unmarked store j rest hm] at hi ⊢
      dsimp only at hi ⊢
      exact ih store hnd' i hi

/-- Claim C4 (sweep post-condition): after `sweep`, `allocated` holds exactly
the chunks whose mark bit was set (in order), every unmarked chunk has been
appended to the end of `freed` (in traversal order), and every chunk left in
`allocated` is unmarked. -/
theorem sweep_post (h : Heap) (hnd : h.m_allocated_chunks.Nodup) :
    (sweep h).m_allocated_chunks
        = h.m_allocated_chunks.filter (fun i => (h.store.getD i default).marked)
    ∧ (sweep h).m_freed_chunks
        = h.m_freed_chunks ++ h.m_allocated_chunks.filter (fun i => !(h.store.getD i default).marked)
    ∧ ∀ i ∈ (sweep h).m_allocated_chunks,
        ((sweep h).store.getD i default).marked = false := by
  obtain ⟨ha, hf⟩ := sweepGo_filter h.m_allocated_chunks h.store hnd
  refine ⟨ha, by rw [show (sweep h).m_freed_chunks
      = h.m_freed_chunks ++ (sweepGo h.store h.m_allocated_chunks).2.1 from rfl, hf], ?_⟩
  intro i hi
  exact sweepGo_kept_unmarked h.m_allocated_chunks h.store hnd i hi

theorem sweep_post_witness :
    hC4.m_allocated_chunks.Nodup
    ∧ (sweep hC4).m_allocated_chunks
        = hC4.m_allocated_chunks.filter (fun i => (hC4.store.getD i default).marked)
    ∧ (sweep hC4).m_freed_chunks
        = hC4.m_freed_chunks
          ++ hC4.m_allocated_chunks.filter (fun i => !(hC4.store.getD i default).marked)
    ∧ ∀ i ∈ (sweep hC4).m_allocated_chunks,
        ((sweep hC4).store.getD i default).marked = false :=
  ⟨by decide,
   (sweep_post hC4 (by decide)).1,
   (sweep_post hC4 (by decide)).2.1,
   (sweep_post hC4 (by decide)).2.2⟩

/-! ### Overlap-free freed list (C3) -/

/-- The filtering loop of `free_overlap` produces a chain: each kept chunk
starts at or past the end of the previously kept chunk. -/
theorem overlapGo_chain (store : List Chunk) (rest : List Nat) :
    ∀ prev, List.Chain
      (fun i j => (store.getD i default).start + (store.getD i default).size
        ≤ (store.getD j default).start)
      prev (overlapGo store prev rest) := by
  induction rest with
  | nil => intro prev; exact List.Chain.nil
  | cons i rest ih =>
    intro prev
    rw [overlapGo]
    by_cases hcond : (store.getD prev default).start + (store.getD prev default).size
        ≤ (store.getD i default).start
    · rw [if_pos hcond]
      exact List.Chain.cons hcond (ih i)
    · rw [if_neg hcond]
      exact ih prev

theorem setMarkList_geom (l : List Nat) (b : Bool) :
    ∀ store : List Chunk, geomEq store (setMarkList store b l) := by
  induction l with
  | nil => intro store; exact geomEq_refl store
  | cons i rest ih =>
    intro store
    rw [setMarkList]
    exact geomEq_trans (geomEq_setMark store i b) (ih (setMark store i b))

theorem freeDeleteGo_geom (l : List Nat) :
    ∀ store : List Chunk, geomEq store (freeDeleteGo store l).1 := by
  induction l with
  | nil => intro store; exact geomEq_refl store
  | cons i rest ih =>
    intro store
    rw [freeDeleteGo]
    by_cases hm : (store.getD i default).marked = true
    · rw [if_pos hm]
      exact geomEq_trans (geomEq_setMark store i false) (ih (setMark store i false))
    · rw [if_neg hm]
      exact ih store

/-- Claim C3 (overlap-free freed list): after `free_overlap` runs (its caller
guarantees a non-empty freed list), the chunks remaining in `freed` have
pairwise disjoint address ranges; a subsequent chunk is kept exactly when its
start is at or past the end of the last kept chunk, which forces the chain
and hence disjointness. -/
theorem free_overlap_disjoint (h : Heap) (hne : h.m_freed_chunks ≠ []) :
    ((free_overlap h).m_freed_chunks).Pairwise (fun i j =>
      ∀ a : Nat,
        ¬(((free_overlap h).store.getD i default).start ≤ a
          ∧ a < ((free_overlap h).store.getD i default).start
              + ((free_overlap h).store.getD i default).size
          ∧ ((free_overlap h).store.getD j default).start ≤ a
          ∧ a < ((free_overlap h).store.getD j default).start
              + ((free_overlap h).store.getD j default).size)) := by
  rcases hfl : h.m_freed_chunks with _ | ⟨i0, rest⟩
  · exact absurd hfl hne
  have hfo : free_overlap h =
      { h with m_freed_chunks := i0 :: overlapGo h.store i0 rest,
               store := (freeDeleteGo (setMarkList h.store true (i0 :: overlapGo h.store i0 rest))
                 (i0 :: rest)).1,
               m_destroyed := h.m_destroyed
                 ++ (freeDeleteGo (setMarkList h.store true (i0 :: overlapGo h.store i0 rest))
                   (i0 :: rest)).2,
               output := h.output ++ [toString ((h.store.getD i0 default).start)] } := by
    unfold free_overlap
    rw [hfl]
  rw [hfo]
  have hgeom : geomEq h.store
      (freeDeleteGo (setMarkList h.store true (i0 :: overlapGo h.store i0 rest)) (i0 :: rest)).1 :=
    geomEq_trans (setMarkList_geom (i0 :: overlapGo h.store i0 rest) true h.store)
      (freeDeleteGo_geom (i0 :: rest) _)
  haveI : IsTrans Nat (fun i j => (h.store.getD i default).start + (h.store.getD i default).size
      ≤ (h.store.getD j default).start) := by
    constructor
    intro a b c hab hbc
    calc (h.store.getD a default).start + (h.store.getD a default).size
        ≤ (h.store.getD b default).start := hab
      _ ≤ (h.store.getD b default).start + (h.store.getD b default).size := Nat.le_add_right _ _
      _ ≤ (h.store.getD c default).start := hbc
  have hpw : (i0 :: overlapGo h.store i0 rest).Pairwise
      (fun i j => (h.store.getD i default).start + (h.store.getD i default).size
        ≤ (h.store.getD j default).start) :=
    List.Chain.pairwise (overlapGo_chain h.store rest i0)
  refine hpw.imp ?_
  intro i j hR a ha
  obtain ⟨h1, h2, h3, h4⟩ := ha
  rw [(hgeom i).1] at h1
  rw [(hgeom i).1, (hgeom i).2] at h2
  rw [(hgeom j).1] at h3
  omega

theorem free_overlap_disjoint_witness :
    hC3.m_freed_chunks ≠ []
    ∧ ((free_overlap hC3).m_freed_chunks).Pairwise (fun i j =>
        ∀ a : Nat,
          ¬(((free_overlap hC3).store.getD i default).start ≤ a
            ∧ a < ((free_overlap hC3).store.getD i default).start
                + ((free_overlap hC3).store.getD i default).size
            ∧ ((free_overlap hC3).store.getD j default).start ≤ a
            ∧ a < ((free_overlap hC3).store.getD j default).start
                + ((free_overlap hC3).store.getD j default).size)) :=
  ⟨by decide, free_overlap_disjoint hC3 (by decide)⟩

/-! ### Recycling and allocation case equations -/

/-- The recycling walk never changes the bump counter. -/
theorem recycleGo_m_size (h : Heap) (s : Nat) :
    ∀ (l : List Nat) (acc : List Nat), (recycleGo h s acc l).2.m_size = h.m_size := by
  intro l
  induction l with
  | nil => intro acc; rfl
  | cons i rest ih =>
    intro acc
    rw [recycleGo]
    by_cases h1 : s < (h.store.getD i default).size
    · rw [if_pos h1]
    · rw [if_neg h1]
      by_cases h2 : (h.store.getD i default).size = s
      · rw [if_pos h2]
      · rw [if_neg h2]
        exact ih (i :: acc)

/-- Function `Heap::try_recycle_chunks` never changes the bump counter. -/
theorem try_recycle_m_size (h : Heap) (s : Nat) :
    (try_recycle_chunks h s).2.m_size = h.m_size :=
  recycleGo_m_size h s h.m_freed_chunks []

/-- When the recycling walk finds nothing, the heap is left untouched. -/
theorem recycleGo_none (h : Heap) (s : Nat) :
    ∀ (l : List Nat) (acc : List Nat), (recycleGo h s acc l).1 = none →
      (recycleGo h s acc l).2 = h := by
  intro l
  induction l with
  | nil => intro acc _; rfl
  | cons i rest ih =>
    intro acc hnone
    rw [recycleGo] at hnone ⊢
    by_cases h1 : s < (h.store.getD i default).size
    · rw [if_pos h1] at hnone
      exact absurd hnone (by simp)
    · rw [if_neg h1] at hnone ⊢
      by_cases h2 : (h.store.getD i default).size = s
      · rw [if_pos h2] at hnone
        exact absurd hnone (by simp)
      · rw [if_neg h2] at hnone ⊢
        exact ih (i :: acc) hnone

/-- The recycling walk finds nothing exactly when every freed chunk is
strictly smaller than the request. -/
theorem recycleGo_none_iff (h : Heap) (s : Nat) :
    ∀ (l : List Nat) (acc : List Nat),
      (recycleGo h s acc l).1 = none ↔ ∀ i ∈ l, (h.store.getD i default).size < s := by
  intro l
  induction l with
  | nil => intro acc; simp [recycleGo]
  | cons i rest ih =>
    intro acc
    rw [recycleGo]
    by_cases h1 : s < (h.store.getD i default).size
    · rw [if_pos h1]
      simp only [List.mem_cons]
      constructor
      · intro hc; exact absurd hc (by simp)
      · intro hall
        have := hall i (Or.inl rfl)
        omega
    · rw [if_neg h1]
      by_cases h2 : (h.store.getD i default).size = s
      · rw [if_pos h2]
        simp only [List.mem_cons]
        constructor
        · intro hc; exact absurd hc (by simp)
        · intro hall
          have := hall i (Or.inl rfl)
          omega
      · rw [if_neg h2]
        rw [ih (i :: acc)]
        simp only [List.mem_cons]
        constructor
        · intro hall j hj
          rcases hj with rfl | hj
          · omega
          · exact hall j hj
        · intro hall j hj
          exact hall j (Or.inr hj)

/-- Function `alloc` on the over-capacity path: collect runs and, since collection
never lowers `m_size`, the out-of-memory assertion fires. -/
theorem alloc_eq_oom (mem : Nat → Nat) (sb : Nat) (h : Heap) (size : Nat)
    (hsz : ¬size = 0) (hc : HEAP_SIZE < h.m_size + size) :
    alloc mem sb h size = (AllocResult.oom, collect mem sb h) := by
  have hc2 : HEAP_SIZE < (collect mem sb h).m_size + size := by
    rw [collect_m_size]
    exact hc
  simp only [alloc, if_neg hsz, if_pos hc, if_pos hc2]

/-- Function `alloc` when capacity suffices and a freed chunk is recycled. -/
theorem alloc_eq_recycled (mem : Nat → Nat) (sb : Nat) (h : Heap) (size i : Nat)
    (h2 : Heap) (hsz : ¬size = 0) (hc : ¬HEAP_SIZE < h.m_size + size)
    (hrec : try_recycle_chunks h size = (some i, h2)) :
    alloc mem sb h size = (AllocResult.ok ((h2.store.getD i default).start), h2) := by
  simp only [alloc, if_neg hsz, if_neg hc, hrec]

/-- Function `alloc` when capacity suffices and no freed chunk fits: a fresh chunk is
carved at `m_heap + m_size`. -/
theorem alloc_eq_fresh (mem : Nat → Nat) (sb : Nat) (h : Heap) (size : Nat)
    (h2 : Heap) (hsz : ¬size = 0) (hc : ¬HEAP_SIZE < h.m_size + size)
    (hrec : try_recycle_chunks h size = (none, h2)) :
    alloc mem sb h size =
      (AllocResult.ok (h2.m_heap + h2.m_size),
       { h2 with m_size := h2.m_size + size,
                 m_allocated_chunks := h2.m_allocated_chunks ++ [h2.store.length],
                 store := h2.store ++ [⟨h2.m_heap + h2.m_size, size, false⟩] }) := by
  simp only [alloc, if_neg hsz, if_neg hc, hrec]

/-- Function `alloc` on a zero-size request: print the diagnostic and
return a null address, leaving everything else untouched. -/
theorem alloc_eq_zero (mem : Nat → Nat) (sb : Nat) (h : Heap) :
    alloc mem sb h 0 =
      (AllocResult.nullPtr,
       { h with output := h.output ++ ["Heap: Cannot alloc 0B. No bytes allocated."] }) := by
  simp [alloc]

/-! ### Claim theorems C8 and C5 -/

/-- Claim C8 (zero-size allocation): `alloc(0)` returns a null address after
emitting the diagnostic line, and changes nothing else: `m_size`, the chunk
lists, the chunk store and the destroyed list are untouched (in particular
no collection runs). -/
theorem alloc_zero_size (mem : Nat → Nat) (sb : Nat) (h : Heap) :
    (alloc mem sb h 0).1 = AllocResult.nullPtr
    ∧ (alloc mem sb h 0).2.m_size = h.m_size
    ∧ (alloc mem sb h 0).2.m_allocated_chunks = h.m_allocated_chunks
    ∧ (alloc mem sb h 0).2.m_freed_chunks = h.m_freed_chunks
    ∧ (alloc mem sb h 0).2.store = h.store
    ∧ (alloc mem sb h 0).2.m_destroyed = h.m_destroyed
    ∧ (alloc mem sb h 0).2.output
        = h.output ++ ["Heap: Cannot alloc 0B. No bytes allocated."] := by
  rw [alloc_eq_zero]
  exact ⟨rfl, rfl, rfl, rfl, rfl, rfl, rfl⟩

/-- Claim C5 (capacity and out-of-memory): for `size > 0`, `alloc` fails
fatally exactly when the capacity is still insufficient after the
collection it triggers, and on every non-fatal path the invariant
`m_size ≤ HEAP_SIZE` holds afterwards. -/
theorem alloc_capacity (mem : Nat → Nat) (sb : Nat) (h : Heap) (size : Nat)
    (hpos : 0 < size) (hcap : h.m_size ≤ HEAP_SIZE) :
    ((alloc mem sb h size).1 = AllocResult.oom
      ↔ HEAP_SIZE < (collect mem sb h).m_size + size)
    ∧ ((alloc mem sb h size).1 ≠ AllocResult.oom →
        (alloc mem sb h size).2.m_size ≤ HEAP_SIZE) := by
  have hsz : ¬size = 0 := by omega
  by_cases hc : HEAP_SIZE < h.m_size + size
  · rw [alloc_eq_oom mem sb h size hsz hc]
    constructor
    · constructor
      · intro _
        rw [collect_m_size]
        exact hc
      · intro _
        rfl
    · intro hne
      exact absurd rfl hne
  · rcases hrec : try_recycle_chunks h size with ⟨oi, h2⟩
    have hrecsize : h2.m_size = h.m_size := by
      have := try_recycle_m_size h size
      rw [hrec] at this
      exact this
    cases oi with
    | some i =>
      rw [alloc_eq_recycled mem sb h size i h2 hsz hc hrec]
      constructor
      · constructor
        · intro hcon
          exact absurd hcon (by simp)
        · intro hcon
          rw [collect_m_size] at hcon
          exact absurd hcon hc
      · intro _
        rw [hrecsize]
        exact hcap
    | none =>
      rw [alloc_eq_fresh mem sb h size h2 hsz hc hrec]
      constructor
      · constructor
        · intro hcon
          exact absurd hcon (by simp)
        · intro hcon
          rw [collect_m_size] at hcon
          exact absurd hcon hc
      · intro _
        show h2.m_size + size ≤ HEAP_SIZE
        rw [hrecsize]
        omega

theorem alloc_capacity_witness :
    ((0 : Nat) < 1 ∧ hC5.m_size ≤ HEAP_SIZE)
    ∧ ((alloc (fun _ => 0) 0 hC5 1).1 = AllocResult.oom
        ↔ HEAP_SIZE < (collect (fun _ => 0) 0 hC5).m_size + 1)
    ∧ ((alloc (fun _ => 0) 0 hC5 1).1 ≠ AllocResult.oom →
        (alloc (fun _ => 0) 0 hC5 1).2.m_size ≤ HEAP_SIZE) :=
  ⟨⟨by decide, by decide⟩,
   (alloc_capacity (fun _ => 0) 0 hC5 1 (by decide) (by decide)).1,
   (alloc_capacity (fun _ => 0) 0 hC5 1 (by decide) (by decide)).2⟩

/-! ### Claim C7: threshold drain and frame condition -/

/-- Claim C7 (threshold drain): when `|freed| > FREE_THRESH`, `free` empties
`freed`, destroying every removed chunk's metadata (in pop order), and
leaves `m_size` and `allocated` unchanged; when `0 < |freed| ≤ FREE_THRESH`
it instead runs `free_overlap` and performs no wholesale drain. -/
theorem free_policy (h : Heap) :
    (FREE_THRESH < h.m_freed_chunks.length →
        (free h).m_freed_chunks = []
        ∧ (free h).m_destroyed = h.m_destroyed ++ h.m_freed_chunks.reverse
        ∧ (free h).m_size = h.m_size
        ∧ (free h).m_allocated_chunks = h.m_allocated_chunks)
    ∧ (0 < h.m_freed_chunks.length → h.m_freed_chunks.length ≤ FREE_THRESH →
        free h = free_overlap h) := by
  constructor
  · intro hgt
    unfold free
    rw [if_pos hgt]
    exact ⟨rfl, rfl, rfl, rfl⟩
  · intro hpos hle
    unfold free
    rw [if_neg (by omega), if_pos (by omega)]

theorem free_policy_witness :
    (FREE_THRESH < hC7a.m_freed_chunks.length
      ∧ (free hC7a).m_freed_chunks = []
      ∧ (free hC7a).m_destroyed = hC7a.m_destroyed ++ hC7a.m_freed_chunks.reverse
      ∧ (free hC7a).m_size = hC7a.m_size
      ∧ (free hC7a).m_allocated_chunks = hC7a.m_allocated_chunks)
    ∧ (0 < hC7b.m_freed_chunks.length ∧ hC7b.m_freed_chunks.length ≤ FREE_THRESH
      ∧ free hC7b = free_overlap hC7b) :=
  ⟨⟨by decide, (free_policy hC7a).1 (by decide)⟩,
   by decide, by decide, (free_policy hC7b).2 (by decide) (by decide)⟩

/-! ### Claim C9: the bump counter is monotone -/

/-- Claim C9 (implicit): `m_size` never decreases: recycling, sweep, free,
free_overlap and collect leave it unchanged, `alloc` only ever advances it
(on the fresh-chunk path), and a recycled allocation leaves it unchanged. -/
theorem used_monotone (mem : Nat → Nat) (sb : Nat) (h : Heap) (size : Nat) :
    (try_recycle_chunks h size).2.m_size = h.m_size
    ∧ (sweep h).m_size = h.m_size
    ∧ (free h).m_size = h.m_size
    ∧ (free_overlap h).m_size = h.m_size
    ∧ (collect mem sb h).m_size = h.m_size
    ∧ h.m_size ≤ (alloc mem sb h size).2.m_size
    ∧ (∀ i h2, ¬size = 0 → ¬HEAP_SIZE < h.m_size + size →
        try_recycle_chunks h size = (some i, h2) →
        (alloc mem sb h size).2.m_size = h.m_size) := by
  refine ⟨try_recycle_m_size h size, sweep_m_size h, free_m_size h,
    free_overlap_m_size h, collect_m_size mem sb h, ?_, ?_⟩
  · by_cases hsz : size = 0
    · subst hsz
      rw [alloc_eq_zero]
    · by_cases hc : HEAP_SIZE < h.m_size + size
      · rw [alloc_eq_oom mem sb h size hsz hc]
        exact le_of_eq (collect_m_size mem sb h).symm
      · rcases hrec : try_recycle_chunks h size with ⟨oi, h2⟩
        have hrs : h2.m_size = h.m_size := by
          have := try_recycle_m_size h size
          rw [hrec] at this
          exact this
        cases oi with
        | some i =>
          rw [alloc_eq_recycled mem sb h size i h2 hsz hc hrec]
          exact le_of_eq hrs.symm
        | none =>
          rw [alloc_eq_fresh mem sb h size h2 hsz hc hrec]
          show h.m_size ≤ h2.m_size + size
          rw [hrs]
          exact Nat.le_add_right _ _
  · intro i h2 hsz hc hrec
    rw [alloc_eq_recycled mem sb h size i h2 hsz hc hrec]
    have := try_recycle_m_size h size
    rw [hrec] at this
    exact this

theorem used_monotone_witness :
    ((3 : Nat) ≠ 0 ∧ ¬HEAP_SIZE < hC9.m_size + 3
      ∧ try_recycle_chunks hC9 3 = (some 0, ⟨0, 0, 0, [0], [], [⟨5, 3, false⟩], [], []⟩))
    ∧ (alloc (fun _ => 0) 0 hC9 3).2.m_size = hC9.m_size :=
  ⟨⟨by decide, by decide, by decide⟩,
   (used_monotone (fun _ => 0) 0 hC9 3).2.2.2.2.2.2 0
     ⟨0, 0, 0, [0], [], [⟨5, 3, false⟩], [], []⟩ (by decide) (by decide) (by decide)⟩

/-! ### Claim C10: failed recycling and the fresh-chunk path -/

/-- Claim C10 (implicit): `try_recycle_chunks(size)` returns null exactly
when no freed chunk is at least `size` large; in that case it leaves the
heap untouched, and `alloc` then carves a fresh chunk at `m_heap + m_size`
and returns that address. -/
theorem recycle_none_fresh (mem : Nat → Nat) (sb : Nat) (h : Heap) (size : Nat) :
    ((try_recycle_chunks h size).1 = none
      ↔ ∀ i ∈ h.m_freed_chunks, (h.store.getD i default).size < size)
    ∧ ((try_recycle_chunks h size).1 = none → (try_recycle_chunks h size).2 = h)
    ∧ (¬size = 0 → ¬HEAP_SIZE < h.m_size + size → (try_recycle_chunks h size).1 = none →
        alloc mem sb h size =
          (AllocResult.ok (h.m_heap + h.m_size),
           { h with m_size := h.m_size + size,
                    m_allocated_chunks := h.m_allocated_chunks ++ [h.store.length],
                    store := h.store ++ [⟨h.m_heap + h.m_size, size, false⟩] })) := by
  refine ⟨recycleGo_none_iff h size h.m_freed_chunks [], ?_, ?_⟩
  · intro hn
    exact recycleGo_none h size h.m_freed_chunks [] hn
  · intro hsz hc hn
    have h2eq : (try_recycle_chunks h size).2 = h :=
      recycleGo_none h size h.m_freed_chunks [] hn
    have hrec : try_recycle_chunks h size = (none, h) := by
      have hsplit : try_recycle_chunks h size
          = ((try_recycle_chunks h size).1, (try_recycle_chunks h size).2) := rfl
      rw [hsplit, hn, h2eq]
    exact alloc_eq_fresh mem sb h size h hsz hc hrec

theorem recycle_none_fresh_witness :
    ((3 : Nat) ≠ 0 ∧ ¬HEAP_SIZE < hC10.m_size + 3
      ∧ (try_recycle_chunks hC10 3).1 = none)
    ∧ alloc (fun _ => 0) 0 hC10 3 =
        (AllocResult.ok (hC10.m_heap + hC10.m_size),
         { hC10 with m_size := hC10.m_size + 3,
                     m_allocated_chunks := hC10.m_allocated_chunks ++ [hC10.store.length],
                     store := hC10.store ++ [⟨hC10.m_heap + hC10.m_size, 3, false⟩] }) :=
  ⟨⟨by decide, by decide, by decide⟩,
   (recycle_none_fresh (fun _ => 0) 0 hC10 3).2.2 (by decide) (by decide) (by decide)⟩

/-! ### Claim C2: recycling policy -/

/-- Counterexample to claim C2 as stated: recycling a 4-byte request from a
10-byte freed chunk does move a chunk to `allocated` and append the
complement to `freed`, but the chunk moved to `allocated` is the whole
original 10-byte chunk — no chunk of the requested 4-byte size (the
"requested prefix") exists in `allocated` afterwards. -/
theorem try_recycle_split_keeps_original_size :
    (try_recycle_chunks hC2 4).1 = some 0
    ∧ (try_recycle_chunks hC2 4).2.m_allocated_chunks = [0]
    ∧ ((try_recycle_chunks hC2 4).2.store.getD 0 default).size = 10
    ∧ ¬∃ i ∈ (try_recycle_chunks hC2 4).2.m_allocated_chunks,
        ((try_recycle_chunks hC2 4).2.store.getD i default).size = 4 := by
  decide

/-- The recycling walk skips every freed chunk smaller than the request,
pushing it onto the accumulator. -/
theorem recycleGo_skip (h : Heap) (s : Nat) :
    ∀ (pre acc rest : List Nat), (∀ j ∈ pre, (h.store.getD j default).size < s) →
      recycleGo h s acc (pre ++ rest) = recycleGo h s (pre.reverse ++ acc) rest := by
  intro pre
  induction pre with
  | nil => intro acc rest _; simp
  | cons j pre ih =>
    intro acc rest hpre
    have hj := hpre j (List.mem_cons_self _ _)
    rw [List.cons_append, recycleGo]
    rw [if_neg (by omega), if_neg (by omega)]
    rw [ih (j :: acc) rest (fun k hk => hpre k (List.mem_cons_of_mem _ hk))]
    congr 1
    rw [List.reverse_cons, List.append_assoc]
    rfl

/-- Claim C2 as amended: `try_recycle_chunks(size)` takes the first freed
chunk with `size ≥` the request (strictly smaller chunks are skipped); on
exact equality the whole chunk moves to `allocated`; on strict overshoot
the whole chunk — retaining its original size — moves to `allocated` and a
complement chunk of `original_size − size` bytes starting at
`original.start + original.size` is appended to `freed`; `alloc` returns
the original chunk's start address. -/
theorem try_recycle_first_fit (mem : Nat → Nat) (sb : Nat) (h : Heap) (size i : Nat)
    (pre post : List Nat)
    (hsplit : h.m_freed_chunks = pre ++ i :: post)
    (hpre : ∀ j ∈ pre, (h.store.getD j default).size < size)
    (hfit : size ≤ (h.store.getD i default).size)
    (hvalid : i < h.store.length) :
    (try_recycle_chunks h size).1 = some i
    ∧ ((h.store.getD i default).size = size →
        (try_recycle_chunks h size).2 =
          { h with m_freed_chunks := pre ++ post,
                   m_allocated_chunks := h.m_allocated_chunks ++ [i] })
    ∧ (size < (h.store.getD i default).size →
        (try_recycle_chunks h size).2 =
          { h with m_freed_chunks := (pre ++ post) ++ [h.store.length],
                   m_allocated_chunks := h.m_allocated_chunks ++ [i],
                   store := h.store
                     ++ [⟨(h.store.getD i default).start + (h.store.getD i default).size,
                          (h.store.getD i default).size - size, false⟩] })
    ∧ (¬size = 0 → ¬HEAP_SIZE < h.m_size + size →
        (alloc mem sb h size).1 = AllocResult.ok ((h.store.getD i default).start)) := by
  have hstep : try_recycle_chunks h size = recycleGo h size pre.reverse (i :: post) := by
    unfold try_recycle_chunks
    rw [hsplit, recycleGo_skip h size pre [] (i :: post) hpre, List.append_nil]
  rcases Nat.lt_or_ge size (h.store.getD i default).size with hlt | hge
  · -- strict overshoot: split
    have hgo : recycleGo h size pre.reverse (i :: post) =
        (some i,
         { h with m_freed_chunks := (pre.reverse.reverse ++ post) ++ [h.store.length],
                  m_allocated_chunks := h.m_allocated_chunks ++ [i],
                  store := h.store
                    ++ [⟨(h.store.getD i default).start + (h.store.getD i default).size,
                         (h.store.getD i default).size - size, false⟩] }) := by
      rw [recycleGo, if_pos hlt]
    rw [List.reverse_reverse] at hgo
    have hrec : try_recycle_chunks h size = _ := hstep.trans hgo
    refine ⟨by rw [hrec], ?_, ?_, ?_⟩
    · intro heq
      omega
    · intro _
      rw [hrec]
    · intro hsz hc
      rw [alloc_eq_recycled mem sb h size i _ hsz hc hrec]
      exact congrArg (fun a => AllocResult.ok a.start)
        (List.getD_append h.store
          [⟨(h.store.getD i default).start + (h.store.getD i default).size,
            (h.store.getD i default).size - size, false⟩] default i hvalid)
  · -- exact fit
    have heq : (h.store.getD i default).size = size := Nat.le_antisymm hge hfit
    have hgo : recycleGo h size pre.reverse (i :: post) =
        (some i,
         { h with m_freed_chunks := pre.reverse.reverse ++ post,
                  m_allocated_chunks := h.m_allocated_chunks ++ [i] }) := by
      rw [recycleGo, if_neg (by omega), if_pos heq]
    rw [List.reverse_reverse] at hgo
    have hrec : try_recycle_chunks h size = _ := hstep.trans hgo
    refine ⟨by rw [hrec], ?_, ?_, ?_⟩
    · intro _
      rw [hrec]
    · intro hlt
      omega
    · intro hsz hc
      rw [alloc_eq_recycled mem sb h size i _ hsz hc hrec]

theorem try_recycle_first_fit_witness :
    (hC2.m_freed_chunks = [] ++ 0 :: []
      ∧ (∀ j ∈ ([] : List Nat), (hC2.store.getD j default).size < 4)
      ∧ 4 ≤ (hC2.store.getD 0 default).size
      ∧ 0 < hC2.store.length)
    ∧ (try_recycle_chunks hC2 4).1 = some 0
    ∧ 4 < (hC2.store.getD 0 default).size
    ∧ (try_recycle_chunks hC2 4).2 =
        { hC2 with m_freed_chunks := ([] ++ []) ++ [hC2.store.length],
                   m_allocated_chunks := hC2.m_allocated_chunks ++ [0],
                   store := hC2.store
                     ++ [⟨(hC2.store.getD 0 default).start + (hC2.store.getD 0 default).size,
                          (hC2.store.getD 0 default).size - 4, false⟩] }
    ∧ (alloc (fun _ => 0) 0 hC2 4).1 = AllocResult.ok ((hC2.store.getD 0 default).start)
    ∧ (hC2.store.getD 0 default).size = 10
    ∧ (try_recycle_chunks hC2 10).2 =
        { hC2 with m_freed_chunks := [] ++ [],
                   m_allocated_chunks := hC2.m_allocated_chunks ++ [0] } := by
  have f4 := try_recycle_first_fit (fun _ => 0) 0 hC2 4 0 [] [] (by decide) (by decide)
    (by decide) (by decide)
  have f10 := try_recycle_first_fit (fun _ => 0) 0 hC2 10 0 [] [] (by decide) (by decide)
    (by decide) (by decide)
  exact ⟨⟨by decide, by decide, by decide, by decide⟩, f4.1, by decide,
    f4.2.2.1 (by decide), f4.2.2.2 (by decide) (by decide), by decide,
    f10.2.1 (by decide)⟩

end GC
